import Mathlib

/-!
Verification development for the SQuADDS closest-match retrieval and
scaling-interpolation engine.  The data model and the operations below are
a shallow embedding of the engine described in the repository's design
documents; numeric scalars are modelled by exact rationals.
-/

namespace SQuADDS

/-- Absolute value on ℚ, written with an explicit branch so that it
evaluates by kernel reduction. -/
def absQ (x : ℚ) : ℚ := if x < 0 then -x else x

/-- Natural-number power on ℚ by structural recursion. -/
def npowQ (x : ℚ) : ℕ → ℚ
  | 0 => 1
  | n + 1 => x * npowQ x n

/-- Integer power on ℚ. -/
def ipowQ (x : ℚ) (e : ℤ) : ℚ :=
  if 0 ≤ e then npowQ x e.toNat else (npowQ x (-e).toNat)⁻¹

/-- Modelled from the spec (§3 DesignRecord; the repository's
analysis/interpolation implementation is not in the source tree): a flat
record with numeric physics fields, a categorical resonator-topology field,
and numeric design fields. -/
structure DesignRecord where
  physics : List (String × ℚ)
  resonanceType : String
  design : List (String × ℚ)
deriving DecidableEq

/-- Modelled from the spec (§3 ComparisonTable): an ordered, stable
collection of design records together with the physics-field schema shared
by all rows. -/
structure ComparisonTable where
  schema : List String
  rows : List DesignRecord
deriving DecidableEq

/-- Modelled from the spec (§3 TargetVector): one requested physics field
with its target value, per-field weight, and optional user-supplied
normalization scale (`none` selects the default relative-error
normalization by the target value itself). -/
structure TargetEntry where
  field : String
  value : ℚ
  weight : ℚ
  scale : Option ℚ
deriving DecidableEq

/-- Modelled from the spec (§3 TargetVector, §4.2): the numeric target
entries plus the optional categorical resonance-type restriction. -/
structure TargetVector where
  entries : List TargetEntry
  resType : Option String
deriving DecidableEq

/-- Modelled from the spec (§7 error taxonomy). -/
inductive QueryError where
  | TargetFieldNotFound (fields : List String)
  | EmptyTable
  | DegenerateNormalization (fieldName : String)
  | UnknownComponentType (ident : String)
  | EmptyResultSet
  | NoScalingRuleForTopology (topology : String)
deriving DecidableEq

/-- Modelled from the spec (§4.2): the two supported norms, weighted sum of
squares or weighted sum of absolute values. -/
inductive NormKind where
  | sumSquares
  | sumAbs
deriving DecidableEq

/-- Modelled from the spec (§7 numerical edge cases): the explicit,
documented policy for a degenerate (zero) normalizer — fail explicitly or
fall back to absolute normalization for that field. -/
inductive DegeneratePolicy where
  | failDegenerate
  | fallbackAbsolute
deriving DecidableEq

/-- Matching-engine configuration: which norm combines the per-field
deviations and which degenerate-normalization policy is in force. -/
structure MatchConfig where
  norm : NormKind
  degenerate : DegeneratePolicy
deriving DecidableEq

/-- The default configuration: Euclidean norm in normalized space and the
explicit-failure policy for degenerate normalizers. -/
def defaultConfig : MatchConfig :=
  ⟨NormKind.sumSquares, DegeneratePolicy.failDegenerate⟩

instance instDecEqExcept {ε α : Type} [DecidableEq ε] [DecidableEq α] :
    DecidableEq (Except ε α)
  | Except.error a, Except.error b =>
      if h : a = b then isTrue (by rw [h])
      else isFalse (by intro hc; cases hc; exact h rfl)
  | Except.error _, Except.ok _ => isFalse (by intro hc; cases hc)
  | Except.ok _, Except.error _ => isFalse (by intro hc; cases hc)
  | Except.ok a, Except.ok b =>
      if h : a = b then isTrue (by rw [h])
      else isFalse (by intro hc; cases hc; exact h rfl)

/-- Value of a physics field in a record (first occurrence; a valid merged
table has every schema field present). -/
def fieldVal (r : DesignRecord) (f : String) : ℚ :=
  ((r.physics.find? (fun p => p.1 == f)).map Prod.snd).getD 0

/-- Value of a design field in a record. -/
def designVal (r : DesignRecord) (f : String) : ℚ :=
  ((r.design.find? (fun p => p.1 == f)).map Prod.snd).getD 0

/-- The normalizer requested for an entry: the user-supplied scale when
present, otherwise the target value itself (relative-error default). -/
def normBase (e : TargetEntry) : ℚ := e.scale.getD e.value

/-- The divisor actually used for an entry under the configured degenerate
policy: under the fallback policy a zero normalizer is replaced by the
absolute scale 1. -/
def normUsed (pol : DegeneratePolicy) (e : TargetEntry) : ℚ :=
  match pol with
  | DegeneratePolicy.failDegenerate => normBase e
  | DegeneratePolicy.fallbackAbsolute => if normBase e = 0 then 1 else normBase e

/-- Per-field relative deviation of a candidate from the target. -/
def deviation (pol : DegeneratePolicy) (e : TargetEntry) (r : DesignRecord) : ℚ :=
  (fieldVal r e.field - e.value) / normUsed pol e

/-- Weighted contribution of one target entry to the candidate's distance. -/
def fieldTerm (cfg : MatchConfig) (e : TargetEntry) (r : DesignRecord) : ℚ :=
  match cfg.norm with
  | NormKind.sumSquares =>
      e.weight * (deviation cfg.degenerate e r * deviation cfg.degenerate e r)
  | NormKind.sumAbs => e.weight * absQ (deviation cfg.degenerate e r)

/-- Scalar distance of a candidate record from the target: the weighted
combination over exactly the target's entries. -/
def distance (cfg : MatchConfig) (tgt : TargetVector) (r : DesignRecord) : ℚ :=
  (tgt.entries.map (fun e => fieldTerm cfg e r)).sum

/-- A candidate annotated with its stable row index and its distance. -/
structure Cand where
  idx : ℕ
  row : DesignRecord
  dist : ℚ
deriving DecidableEq

/-- Ranking order on annotated candidates: ascending distance, ties broken
by stable row order. -/
def candLe (a b : Cand) : Prop :=
  a.dist < b.dist ∨ (a.dist = b.dist ∧ a.idx ≤ b.idx)

instance instDecCandLe : DecidableRel candLe := fun a b => by
  unfold candLe; infer_instance

instance : IsTotal Cand candLe := by
  constructor
  intro a b
  rcases lt_trichotomy a.dist b.dist with h | h | h
  · exact Or.inl (Or.inl h)
  · rcases Nat.le_total a.idx b.idx with hi | hi
    · exact Or.inl (Or.inr ⟨h, hi⟩)
    · exact Or.inr (Or.inr ⟨h.symm, hi⟩)
  · exact Or.inr (Or.inl h)

instance : IsTrans Cand candLe := by
  constructor
  intro a b c hab hbc
  rcases hab with h1 | ⟨h1, i1⟩
  · rcases hbc with h2 | ⟨h2, _⟩
    · exact Or.inl (h1.trans h2)
    · exact Or.inl (h2 ▸ h1)
  · rcases hbc with h2 | ⟨h2, i2⟩
    · exact Or.inl (h1 ▸ h2)
    · exact Or.inr ⟨h1.trans h2, i1.trans i2⟩

/-- Annotate each candidate row with its stable index (starting at `i`) and
its distance from the target: the vectorized bulk distance computation. -/
def annotate (cfg : MatchConfig) (tgt : TargetVector) : ℕ → List DesignRecord → List Cand
  | _, [] => []
  | i, r :: rs => ⟨i, r, distance cfg tgt r⟩ :: annotate cfg tgt (i + 1) rs

/-- Candidate rows for a target: when the target carries a resonance-type
restriction, only rows of that resonator topology participate; the
categorical field contributes no numeric distance term. -/
def candidateRows (tgt : TargetVector) (rows : List DesignRecord) : List DesignRecord :=
  match tgt.resType with
  | none => rows
  | some s => rows.filter (fun r => r.resonanceType == s)

/-- All candidates ranked by ascending distance with stable-row-order
tie-break. -/
def rankCandidates (cfg : MatchConfig) (tgt : TargetVector)
    (rows : List DesignRecord) : List Cand :=
  List.insertionSort candLe (annotate cfg tgt 0 (candidateRows tgt rows))

/-- The first `k` ranked candidates, projected to (record, distance). -/
def rankedResults (cfg : MatchConfig) (tgt : TargetVector)
    (rows : List DesignRecord) (k : ℕ) : List (DesignRecord × ℚ) :=
  ((rankCandidates cfg tgt rows).take k).map (fun c => (c.row, c.dist))

/-- Target fields absent from the table's physics-field schema. -/
def missingFields (tgt : TargetVector) (table : ComparisonTable) : List String :=
  (tgt.entries.map (fun e => e.field)).filter (fun f => !(table.schema.contains f))

/-- The first target entry whose requested normalizer is zero, if any. -/
def degenerateEntry (tgt : TargetVector) : Option TargetEntry :=
  tgt.entries.find? (fun e => decide (normBase e = 0))

/-- Modelled from the spec (§4.2 contract of the Distance & Matching
Engine; the repository's analysis implementation is not in the source
tree): check the target fields against the schema, reject an empty table,
apply the degenerate-normalization policy, then return the `k`
smallest-distance candidates in ascending order. -/
def find_closest (cfg : MatchConfig) (table : ComparisonTable)
    (tgt : TargetVector) (k : ℕ) : Except QueryError (List (DesignRecord × ℚ)) :=
  if missingFields tgt table = [] then
    if table.rows = [] then
      Except.error QueryError.EmptyTable
    else
      match cfg.degenerate with
      | DegeneratePolicy.failDegenerate =>
        match degenerateEntry tgt with
        | some e => Except.error (QueryError.DegenerateNormalization e.field)
        | none => Except.ok (rankedResults cfg tgt table.rows k)
      | DegeneratePolicy.fallbackAbsolute =>
        Except.ok (rankedResults cfg tgt table.rows k)
  else
    Except.error (QueryError.TargetFieldNotFound (missingFields tgt table))

/-- Candidates annotated from index `i` carry exactly the distance of their
own row. -/
theorem annotate_mem_dist {cfg : MatchConfig} {tgt : TargetVector} :
    ∀ {i : ℕ} {rows : List DesignRecord} {c : Cand},
      c ∈ annotate cfg tgt i rows → c.dist = distance cfg tgt c.row := by
  intro i rows
  induction rows generalizing i with
  | nil => intro c hc; simp [annotate] at hc
  | cons r rs ih =>
    intro c hc
    rcases (by simpa [annotate] using hc :
        c = (⟨i, r, distance cfg tgt r⟩ : Cand) ∨ c ∈ annotate cfg tgt (i + 1) rs) with h | h
    · subst h; rfl
    · exact ih h

/-- Projecting the rows back out of an annotated list recovers the rows. -/
theorem annotate_map_row (cfg : MatchConfig) (tgt : TargetVector) :
    ∀ (i : ℕ) (rows : List DesignRecord),
      (annotate cfg tgt i rows).map Cand.row = rows := by
  intro i rows
  induction rows generalizing i with
  | nil => simp [annotate]
  | cons r rs ih => simp [annotate, ih]

/-- Annotation preserves the number of rows. -/
theorem annotate_length (cfg : MatchConfig) (tgt : TargetVector) :
    ∀ (i : ℕ) (rows : List DesignRecord),
      (annotate cfg tgt i rows).length = rows.length := by
  intro i rows
  induction rows generalizing i with
  | nil => simp [annotate]
  | cons r rs ih => simp [annotate, ih]

/-- Every candidate annotated from index `i` has index at least `i`. -/
theorem annotate_le_idx (cfg : MatchConfig) (tgt : TargetVector) :
    ∀ (i : ℕ) (rows : List DesignRecord) {c : Cand},
      c ∈ annotate cfg tgt i rows → i ≤ c.idx := by
  intro i rows
  induction rows generalizing i with
  | nil => intro c hc; simp [annotate] at hc
  | cons r rs ih =>
    intro c hc
    rcases (by simpa [annotate] using hc :
        c = (⟨i, r, distance cfg tgt r⟩ : Cand) ∨ c ∈ annotate cfg tgt (i + 1) rs) with h | h
    · subst h; exact le_refl i
    · exact le_trans (Nat.le_succ i) (ih (i + 1) h)

/-- Annotated candidates carry strictly increasing stable row indices. -/
theorem annotate_pairwise_idx (cfg : MatchConfig) (tgt : TargetVector) :
    ∀ (i : ℕ) (rows : List DesignRecord),
      (annotate cfg tgt i rows).Pairwise (fun a b => a.idx < b.idx) := by
  intro i rows
  induction rows generalizing i with
  | nil => simp [annotate]
  | cons r rs ih =>
    refine List.Pairwise.cons ?_ (ih (i + 1))
    intro b hb
    exact Nat.lt_of_lt_of_le (Nat.lt_succ_self i) (annotate_le_idx cfg tgt (i + 1) rs hb)

/-- The ranked candidate list is a permutation of the annotated candidates. -/
theorem rankCandidates_perm (cfg : MatchConfig) (tgt : TargetVector)
    (rows : List DesignRecord) :
    List.Perm (rankCandidates cfg tgt rows)
      (annotate cfg tgt 0 (candidateRows tgt rows)) :=
  List.perm_insertionSort candLe _

/-- The ranked candidate list is sorted by the ranking order. -/
theorem rankCandidates_sorted (cfg : MatchConfig) (tgt : TargetVector)
    (rows : List DesignRecord) :
    List.Sorted candLe (rankCandidates cfg tgt rows) :=
  List.sorted_insertionSort candLe _

/-- Every ranked candidate carries the distance of its own row. -/
theorem rankCandidates_mem_dist {cfg : MatchConfig} {tgt : TargetVector}
    {rows : List DesignRecord} {c : Cand} (hc : c ∈ rankCandidates cfg tgt rows) :
    c.dist = distance cfg tgt c.row :=
  annotate_mem_dist ((rankCandidates_perm cfg tgt rows).mem_iff.mp hc)

/-- The ranked candidates' stable indices are pairwise distinct. -/
theorem rankCandidates_idx_nodup (cfg : MatchConfig) (tgt : TargetVector)
    (rows : List DesignRecord) :
    (rankCandidates cfg tgt rows).Pairwise (fun a b => a.idx ≠ b.idx) := by
  have hperm := (rankCandidates_perm cfg tgt rows).map Cand.idx
  have hnodup : ((annotate cfg tgt 0 (candidateRows tgt rows)).map Cand.idx).Nodup := by
    rw [List.Nodup, List.pairwise_map]
    exact (annotate_pairwise_idx cfg tgt 0 _).imp (fun h => Nat.ne_of_lt h)
  have hnd : ((rankCandidates cfg tgt rows).map Cand.idx).Nodup :=
    (List.Perm.nodup_iff hperm).mpr hnodup
  rw [List.Nodup, List.pairwise_map] at hnd
  exact hnd

/-- Ranking order with ties resolved: within the ranked list a candidate is
followed only by candidates of strictly larger distance or, on an exact
distance tie, strictly later stable row order. -/
theorem rankCandidates_pairwise_strict (cfg : MatchConfig) (tgt : TargetVector)
    (rows : List DesignRecord) :
    (rankCandidates cfg tgt rows).Pairwise
      (fun a b => a.dist < b.dist ∨ (a.dist = b.dist ∧ a.idx < b.idx)) := by
  have hs := rankCandidates_sorted cfg tgt rows
  have hn := rankCandidates_idx_nodup cfg tgt rows
  refine (List.Pairwise.and hs hn).imp ?_
  rintro a b ⟨hle, hne⟩
  rcases hle with h | ⟨hd, hi⟩
  · exact Or.inl h
  · exact Or.inr ⟨hd, lt_of_le_of_ne hi hne⟩

/-- A record matching the target exactly on every target field. -/
def matchesTarget (tgt : TargetVector) (r : DesignRecord) : Prop :=
  ∀ e ∈ tgt.entries, fieldVal r e.field = e.value

/-- With a missing target field, `find_closest` reports all missing fields. -/
theorem find_closest_missing {cfg : MatchConfig} {table : ComparisonTable}
    {tgt : TargetVector} {k : ℕ} (h : missingFields tgt table ≠ []) :
    find_closest cfg table tgt k =
      Except.error (QueryError.TargetFieldNotFound (missingFields tgt table)) := by
  unfold find_closest
  rw [if_neg h]

/-- With all fields present but no rows, `find_closest` reports the empty
table. -/
theorem find_closest_empty {cfg : MatchConfig} {table : ComparisonTable}
    {tgt : TargetVector} {k : ℕ} (h1 : missingFields tgt table = [])
    (h2 : table.rows = []) :
    find_closest cfg table tgt k = Except.error QueryError.EmptyTable := by
  unfold find_closest
  rw [if_pos h1, if_pos h2]

/-- Under the explicit-failure policy a degenerate normalizer is reported. -/
theorem find_closest_degenerate {cfg : MatchConfig} {table : ComparisonTable}
    {tgt : TargetVector} {k : ℕ} {e : TargetEntry}
    (h1 : missingFields tgt table = []) (h2 : table.rows ≠ [])
    (hp : cfg.degenerate = DegeneratePolicy.failDegenerate)
    (hd : degenerateEntry tgt = some e) :
    find_closest cfg table tgt k =
      Except.error (QueryError.DegenerateNormalization e.field) := by
  unfold find_closest
  rw [if_pos h1, if_neg h2, hp, hd]

/-- When all checks pass, `find_closest` returns the ranked prefix. -/
theorem find_closest_success {cfg : MatchConfig} {table : ComparisonTable}
    {tgt : TargetVector} {k : ℕ} (h1 : missingFields tgt table = [])
    (h2 : table.rows ≠ [])
    (hd : cfg.degenerate = DegeneratePolicy.failDegenerate →
      degenerateEntry tgt = none) :
    find_closest cfg table tgt k = Except.ok (rankedResults cfg tgt table.rows k) := by
  unfold find_closest
  rw [if_pos h1, if_neg h2]
  cases hp : cfg.degenerate with
  | failDegenerate => rw [hd hp]
  | fallbackAbsolute => rfl

/-- Inversion: a successful query passed every check and returned the
ranked prefix. -/
theorem find_closest_ok {cfg : MatchConfig} {table : ComparisonTable}
    {tgt : TargetVector} {k : ℕ} {res : List (DesignRecord × ℚ)}
    (h : find_closest cfg table tgt k = Except.ok res) :
    missingFields tgt table = [] ∧ table.rows ≠ [] ∧
      res = rankedResults cfg tgt table.rows k := by
  by_cases h1 : missingFields tgt table = []
  · by_cases h2 : table.rows = []
    · rw [find_closest_empty h1 h2] at h; cases h
    · refine ⟨h1, h2, ?_⟩
      unfold find_closest at h
      rw [if_pos h1, if_neg h2] at h
      cases hp : cfg.degenerate with
      | failDegenerate =>
        rw [hp] at h
        cases hd : degenerateEntry tgt with
        | some e => rw [hd] at h; cases h
        | none => rw [hd] at h; cases h; rfl
      | fallbackAbsolute => rw [hp] at h; cases h; rfl
  · rw [find_closest_missing h1] at h; cases h

/-- The absolute-value helper is nonnegative. -/
theorem absQ_nonneg (x : ℚ) : 0 ≤ absQ x := by
  unfold absQ
  split <;> linarith

/-- With nonnegative weights every candidate distance is nonnegative, under
either norm. -/
theorem distance_nonneg {cfg : MatchConfig} {tgt : TargetVector} {r : DesignRecord}
    (hw : ∀ e ∈ tgt.entries, 0 ≤ e.weight) : 0 ≤ distance cfg tgt r := by
  unfold distance
  apply List.sum_nonneg
  intro x hx
  obtain ⟨e, he, rfl⟩ := List.mem_map.mp hx
  unfold fieldTerm
  cases cfg.norm with
  | sumSquares => exact mul_nonneg (hw e he) (mul_self_nonneg _)
  | sumAbs => exact mul_nonneg (hw e he) (absQ_nonneg _)

/-- A record agreeing with the target on every target field is at distance
zero, under either norm and any weights. -/
theorem distance_eq_zero_of_match (cfg : MatchConfig) {tgt : TargetVector}
    {r : DesignRecord} (h : matchesTarget tgt r) : distance cfg tgt r = 0 := by
  unfold distance
  apply List.sum_eq_zero
  intro x hx
  obtain ⟨e, he, rfl⟩ := List.mem_map.mp hx
  unfold fieldTerm deviation
  rw [h e he, sub_self, zero_div]
  cases cfg.norm <;> simp [absQ]

/-- The ranking order is reflexive. -/
theorem candLe_refl (a : Cand) : candLe a a := Or.inr ⟨rfl, le_refl _⟩

/-- The ranking order implies comparison of distances. -/
theorem candLe_dist_le {a b : Cand} (h : candLe a b) : a.dist ≤ b.dist := by
  rcases h with h | ⟨h, _⟩
  · exact le_of_lt h
  · exact le_of_eq h

/-- In a sorted candidate list every kept candidate precedes every dropped
candidate in the ranking order. -/
theorem sorted_take_le_drop {l : List Cand} (hs : List.Sorted candLe l) (k : ℕ) :
    ∀ a ∈ l.take k, ∀ b ∈ l.drop k, candLe a b := by
  rw [← List.take_append_drop k l] at hs
  exact (List.pairwise_append.mp hs).2.2

/-- The head of a sorted candidate list is below every member. -/
theorem sorted_head_le {c : Cand} {l : List Cand}
    (hs : List.Sorted candLe (c :: l)) : ∀ b ∈ c :: l, candLe c b := by
  intro b hb
  rcases List.mem_cons.mp hb with h | h
  · subst h; exact candLe_refl b
  · exact (List.pairwise_cons.mp hs).1 b h

/-- Every candidate row appears in the annotated list with its distance. -/
theorem exists_annotate_of_mem {cfg : MatchConfig} {tgt : TargetVector} :
    ∀ {i : ℕ} {rows : List DesignRecord} {r : DesignRecord}, r ∈ rows →
      ∃ c, c ∈ annotate cfg tgt i rows ∧ c.row = r ∧ c.dist = distance cfg tgt r := by
  intro i rows
  induction rows generalizing i with
  | nil => intro r hr; cases hr
  | cons x xs ih =>
    intro r hr
    rcases List.mem_cons.mp hr with h | h
    · subst h
      exact ⟨⟨i, r, distance cfg tgt r⟩, by simp [annotate], rfl, rfl⟩
    · obtain ⟨c, hc, hrow, hdist⟩ := @ih (i + 1) _ h
      exact ⟨c, by simp [annotate]; exact Or.inr hc, hrow, hdist⟩

/-- The head of a prefix of a list is the head of the list. -/
theorem head?_take {α : Type} {k : ℕ} {l : List α} {x : α}
    (h : (l.take k).head? = some x) : l.head? = some x := by
  cases l with
  | nil => simp at h
  | cons a l' =>
    cases k with
    | zero => simp at h
    | succ k' => simpa using h

/-- Claim C1: for a table with at least one row and a target whose fields
all appear in the schema, a successful `find_closest` returns the `k`
smallest-distance candidates in ascending distance order; each returned
distance is the configured weighted combination (sum of squares or sum of
absolute values) of per-field relative deviations over exactly the target's
fields, every returned candidate is at most the distance of every
non-returned candidate, and the top-ranked record minimizes the combined
weighted distance over all candidate rows. -/
theorem find_closest_returns_k_smallest {cfg : MatchConfig}
    {table : ComparisonTable} {tgt : TargetVector} {k : ℕ}
    {res : List (DesignRecord × ℚ)}
    (h : find_closest cfg table tgt k = Except.ok res) :
    res = ((rankCandidates cfg tgt table.rows).take k).map (fun c => (c.row, c.dist)) ∧
    res.length = min k (candidateRows tgt table.rows).length ∧
    res.Pairwise (fun p q => p.2 ≤ q.2) ∧
    (∀ p ∈ res, p.2 = distance cfg tgt p.1) ∧
    (∀ p ∈ res, ∀ c ∈ (rankCandidates cfg tgt table.rows).drop k, p.2 ≤ c.dist) ∧
    (∀ p, res.head? = some p →
      ∀ r ∈ candidateRows tgt table.rows, p.2 ≤ distance cfg tgt r) ∧
    (∀ r, distance cfg tgt r =
      (tgt.entries.map (fun e =>
        match cfg.norm with
        | NormKind.sumSquares => e.weight *
            (((fieldVal r e.field - e.value) / normUsed cfg.degenerate e) *
             ((fieldVal r e.field - e.value) / normUsed cfg.degenerate e))
        | NormKind.sumAbs =>
            e.weight * absQ ((fieldVal r e.field - e.value) / normUsed cfg.degenerate e))).sum) := by
  obtain ⟨h1, h2, hres⟩ := find_closest_ok h
  have hresdef : res =
      ((rankCandidates cfg tgt table.rows).take k).map (fun c => (c.row, c.dist)) := hres
  have hlen : res.length = min k (candidateRows tgt table.rows).length := by
    rw [hresdef, List.length_map, List.length_take,
      (rankCandidates_perm cfg tgt table.rows).length_eq, annotate_length]
  have hsorted := rankCandidates_sorted cfg tgt table.rows
  have htake : ((rankCandidates cfg tgt table.rows).take k).Pairwise candLe :=
    List.Pairwise.sublist (List.take_sublist k _) hsorted
  refine ⟨hresdef, hlen, ?_, ?_, ?_, ?_, ?_⟩
  · rw [hresdef, List.pairwise_map]
    exact htake.imp (fun hab => candLe_dist_le hab)
  · intro p hp
    rw [hresdef] at hp
    obtain ⟨c, hc, rfl⟩ := List.mem_map.mp hp
    exact rankCandidates_mem_dist (List.mem_of_mem_take hc)
  · intro p hp c hc
    rw [hresdef] at hp
    obtain ⟨c0, hc0, rfl⟩ := List.mem_map.mp hp
    exact candLe_dist_le (sorted_take_le_drop hsorted k c0 hc0 c hc)
  · intro p hp r hr
    rw [hresdef, List.head?_map] at hp
    cases htk : ((rankCandidates cfg tgt table.rows).take k).head? with
    | none => rw [htk] at hp; cases hp
    | some c0 =>
      rw [htk] at hp
      injection hp with hp'
      subst hp'
      have hhd : (rankCandidates cfg tgt table.rows).head? = some c0 := head?_take htk
      obtain ⟨ca, ha, hrow, hdist⟩ :=
        (@exists_annotate_of_mem cfg tgt 0 _ _ hr)
      have hca : ca ∈ rankCandidates cfg tgt table.rows :=
        (rankCandidates_perm cfg tgt table.rows).mem_iff.mpr ha
      cases hrank : rankCandidates cfg tgt table.rows with
      | nil => rw [hrank] at hhd; cases hhd
      | cons c1 cs =>
        rw [hrank] at hhd
        injection hhd with h1
        subst h1
        rw [hrank] at hca hsorted
        exact le_of_le_of_eq (candLe_dist_le (sorted_head_le hsorted ca hca)) hdist
  · intro r
    simp only [distance, fieldTerm, deviation]

/-- Example record with resonance frequency 4.0 GHz. -/
def exR1 : DesignRecord :=
  ⟨[("frequency", 4)], "quarter_wave", [("total_length", 10)]⟩

/-- Example record with resonance frequency 5.0 GHz. -/
def exR2 : DesignRecord :=
  ⟨[("frequency", 5)], "quarter_wave", [("total_length", 12)]⟩

/-- Example record with resonance frequency 6.1 GHz. -/
def exR3 : DesignRecord :=
  ⟨[("frequency", 61/10)], "quarter_wave", [("total_length", 8)]⟩

/-- Example three-candidate table with frequencies 4.0, 5.0 and 6.1 GHz. -/
def exTable : ComparisonTable := ⟨["frequency"], [exR1, exR2, exR3]⟩

/-- Example target of 5.05 GHz with unit weight and default normalization. -/
def exTarget : TargetVector := ⟨[⟨"frequency", 101/20, 1, none⟩], none⟩

/-- Witness for claim C1: on the three-candidate example the query at
target 5.05 GHz with `k = 1` succeeds, returning the 5.0 GHz record at
distance 1/10201, and the theorem's ordering and distance conclusions hold
at this concrete input. -/
theorem find_closest_returns_k_smallest_witness :
    find_closest defaultConfig exTable exTarget 1 = Except.ok [(exR2, 1/10201)] ∧
    ([(exR2, (1 : ℚ)/10201)] : List (DesignRecord × ℚ)).Pairwise (fun p q => p.2 ≤ q.2) ∧
    (∀ p ∈ ([(exR2, (1 : ℚ)/10201)] : List (DesignRecord × ℚ)),
      p.2 = distance defaultConfig exTarget p.1) := by
  have h : find_closest defaultConfig exTable exTarget 1 =
      Except.ok [(exR2, 1/10201)] := by
    norm_num [find_closest, missingFields, degenerateEntry, rankedResults,
      rankCandidates, candidateRows, annotate, distance, fieldTerm, deviation,
      normBase, normUsed, fieldVal, defaultConfig, exTable, exTarget, exR1, exR2,
      exR3, List.insertionSort, List.orderedInsert, candLe, List.find?,
      List.filter, absQ]
    intro hfalse
    simp at hfalse
  exact ⟨h, (find_closest_returns_k_smallest h).2.2.1,
    (find_closest_returns_k_smallest h).2.2.2.1⟩

/-- Record whose physics exactly match the 5 GHz target, listed first. -/
def dupR1 : DesignRecord :=
  ⟨[("frequency", 5)], "quarter_wave", [("total_length", 10)]⟩

/-- A different record with the same physics fields, listed second. -/
def dupR2 : DesignRecord :=
  ⟨[("frequency", 5)], "quarter_wave", [("total_length", 20)]⟩

/-- Table holding the two physics-identical records in stable order. -/
def dupTable : ComparisonTable := ⟨["frequency"], [dupR1, dupR2]⟩

/-- Target exactly equal to both records' physics fields. -/
def dupTarget : TargetVector := ⟨[⟨"frequency", 5, 1, none⟩], none⟩

/-- Counterexample for claim C2 as stated: `dupR2`'s physics fields are
exactly equal to the target on every target field, yet with `k = 1` the
returned record is the earlier row `dupR1`, not `dupR2`; so an
exactly-matching row is not always ranked first. -/
theorem find_closest_exact_match_counterexample :
    matchesTarget dupTarget dupR2 ∧
    find_closest defaultConfig dupTable dupTarget 1 = Except.ok [(dupR1, 0)] ∧
    dupR1 ≠ dupR2 := by
  refine ⟨?_, ?_, by decide⟩
  · intro e he
    simp [dupTarget] at he
    subst he
    decide
  · norm_num [find_closest, missingFields, degenerateEntry, rankedResults,
      rankCandidates, candidateRows, annotate, distance, fieldTerm, deviation,
      normBase, normUsed, fieldVal, defaultConfig, dupTable, dupTarget, dupR1,
      dupR2, List.insertionSort, List.orderedInsert, candLe, List.find?,
      List.filter, absQ]
    intro hfalse
    simp at hfalse

/-- Claim C2 (amended): with nonnegative weights and `k ≥ 1`, on a
successful query every candidate row whose physics fields exactly equal the
target has distance 0, and the first returned record has distance 0 — the
earliest zero-distance row in stable order; when several rows match
exactly, the returned record need not be a given matching row. -/
theorem find_closest_exact_match_amended {cfg : MatchConfig}
    {table : ComparisonTable} {tgt : TargetVector} {k : ℕ}
    {res : List (DesignRecord × ℚ)} {r : DesignRecord}
    (hr : r ∈ candidateRows tgt table.rows) (hm : matchesTarget tgt r)
    (hw : ∀ e ∈ tgt.entries, 0 ≤ e.weight) (hk : 1 ≤ k)
    (h : find_closest cfg table tgt k = Except.ok res) :
    distance cfg tgt r = 0 ∧
    ∃ p, res.head? = some p ∧ p.2 = 0 ∧ p.2 = distance cfg tgt p.1 := by
  obtain ⟨h1, h2, hres⟩ := find_closest_ok h
  have hdist0 : distance cfg tgt r = 0 := distance_eq_zero_of_match cfg hm
  obtain ⟨ca, ha, harow, hadist⟩ :=
    (@exists_annotate_of_mem cfg tgt 0 _ _ hr)
  have hca : ca ∈ rankCandidates cfg tgt table.rows :=
    (rankCandidates_perm cfg tgt table.rows).mem_iff.mpr ha
  cases hrank : rankCandidates cfg tgt table.rows with
  | nil => rw [hrank] at hca; cases hca
  | cons c0 cs =>
    have hsorted := rankCandidates_sorted cfg tgt table.rows
    rw [hrank] at hsorted hca
    have hc0le : c0.dist ≤ 0 := by
      have hle := candLe_dist_le (sorted_head_le hsorted ca hca)
      rw [hadist, hdist0] at hle
      exact hle
    have hc0mem : c0 ∈ rankCandidates cfg tgt table.rows := by
      rw [hrank]; exact List.mem_cons_self c0 cs
    have hc0eq : c0.dist = distance cfg tgt c0.row := rankCandidates_mem_dist hc0mem
    have hc0ge : 0 ≤ c0.dist := by
      rw [hc0eq]; exact distance_nonneg hw
    have hc00 : c0.dist = 0 := le_antisymm hc0le hc0ge
    have hhead : res.head? = some (c0.row, c0.dist) := by
      rw [hres]
      unfold rankedResults
      rw [hrank]
      cases k with
      | zero => cases hk
      | succ k' => simp
    exact ⟨hdist0, (c0.row, c0.dist), hhead, hc00, hc0eq⟩

/-- Witness for the amended claim C2: on the duplicated-physics example the
matching row `dupR2` is a candidate at distance 0 and the first returned
record has distance 0. -/
theorem find_closest_exact_match_amended_witness :
    distance defaultConfig dupTarget dupR2 = 0 ∧
    ∃ p, ([(dupR1, (0 : ℚ))] : List (DesignRecord × ℚ)).head? = some p ∧
      p.2 = 0 ∧ p.2 = distance defaultConfig dupTarget p.1 := by
  have h : find_closest defaultConfig dupTable dupTarget 1 =
      Except.ok [(dupR1, 0)] := by
    norm_num [find_closest, missingFields, degenerateEntry, rankedResults,
      rankCandidates, candidateRows, annotate, distance, fieldTerm, deviation,
      normBase, normUsed, fieldVal, defaultConfig, dupTable, dupTarget, dupR1,
      dupR2, List.insertionSort, List.orderedInsert, candLe, List.find?,
      List.filter, absQ]
    intro hfalse
    simp at hfalse
  have hr : dupR2 ∈ candidateRows dupTarget dupTable.rows := by decide
  have hm : matchesTarget dupTarget dupR2 := by
    intro e he
    simp [dupTarget] at he
    subst he
    decide
  have hw : ∀ e ∈ dupTarget.entries, 0 ≤ e.weight := by decide
  have := find_closest_exact_match_amended hr hm hw (le_refl 1) h
  simpa using this

/-- A successful query under the explicit-failure policy has no degenerate
target entry. -/
theorem find_closest_ok_no_degenerate {cfg : MatchConfig} {table : ComparisonTable}
    {tgt : TargetVector} {k : ℕ} {res : List (DesignRecord × ℚ)}
    (h : find_closest cfg table tgt k = Except.ok res)
    (hp : cfg.degenerate = DegeneratePolicy.failDegenerate) :
    degenerateEntry tgt = none := by
  obtain ⟨h1, h2, -⟩ := find_closest_ok h
  unfold find_closest at h
  rw [if_pos h1, if_neg h2, hp] at h
  cases hd : degenerateEntry tgt with
  | some e => rw [hd] at h; cases h
  | none => rfl

/-- Claim C6: `find_closest` fails with `TargetFieldNotFound` listing every
absent target field whenever one exists, fails with `EmptyTable` on a table
with zero rows (and all fields present), and in all other cases does not
fail for either of these reasons. -/
theorem find_closest_schema_enforcement (cfg : MatchConfig)
    (table : ComparisonTable) (tgt : TargetVector) (k : ℕ) :
    (missingFields tgt table ≠ [] →
      find_closest cfg table tgt k =
        Except.error (QueryError.TargetFieldNotFound (missingFields tgt table))) ∧
    (∀ f, f ∈ missingFields tgt table ↔
      (f ∈ tgt.entries.map TargetEntry.field ∧ f ∉ table.schema)) ∧
    (missingFields tgt table = [] → table.rows = [] →
      find_closest cfg table tgt k = Except.error QueryError.EmptyTable) ∧
    (missingFields tgt table = [] → table.rows ≠ [] →
      (∀ fl, find_closest cfg table tgt k ≠
        Except.error (QueryError.TargetFieldNotFound fl)) ∧
      find_closest cfg table tgt k ≠ Except.error QueryError.EmptyTable) := by
  refine ⟨fun h => find_closest_missing h, ?_, fun h1 h2 => find_closest_empty h1 h2, ?_⟩
  · intro f
    simp [missingFields, List.mem_filter]
  · intro h1 h2
    cases hp : cfg.degenerate with
    | failDegenerate =>
      cases hd : degenerateEntry tgt with
      | some e =>
        rw [find_closest_degenerate h1 h2 hp hd]
        exact ⟨fun fl hc => QueryError.noConfusion (Except.error.inj hc),
          fun hc => QueryError.noConfusion (Except.error.inj hc)⟩
      | none =>
        rw [find_closest_success h1 h2 (fun _ => hd)]
        exact ⟨fun fl hc => Except.noConfusion hc, fun hc => Except.noConfusion hc⟩
    | fallbackAbsolute =>
      rw [find_closest_success h1 h2 (fun hc => by rw [hp] at hc; cases hc)]
      exact ⟨fun fl hc => Except.noConfusion hc, fun hc => Except.noConfusion hc⟩

/-- Target requesting a field (`qfactor`) absent from the example table's
schema alongside a present one. -/
def msTarget : TargetVector :=
  ⟨[⟨"frequency", 5, 1, none⟩, ⟨"qfactor", 100, 1, none⟩], none⟩

/-- Witness for claim C6: on the example table the mixed target fails with
`TargetFieldNotFound` listing exactly the absent field `qfactor`. -/
theorem find_closest_schema_enforcement_witness :
    find_closest defaultConfig exTable msTarget 1 =
      Except.error (QueryError.TargetFieldNotFound (missingFields msTarget exTable)) ∧
    ("qfactor" ∈ missingFields msTarget exTable ↔
      ("qfactor" ∈ msTarget.entries.map TargetEntry.field ∧
        "qfactor" ∉ exTable.schema)) := by
  refine ⟨?_, ?_⟩
  · exact (find_closest_schema_enforcement defaultConfig exTable msTarget 1).1 (by decide)
  · exact (find_closest_schema_enforcement defaultConfig exTable msTarget 1).2.1 "qfactor"

/-- Claim C7: whenever `find_closest` actually produces distances (a
successful query), every divisor used in a relative deviation is nonzero,
so no infinite or undefined value enters the ranking; under the
explicit-failure policy a zero normalizer is reported as
`DegenerateNormalization`, and under the fallback policy a zero normalizer
is replaced by the absolute scale 1. -/
theorem find_closest_degenerate_safety (cfg : MatchConfig)
    (table : ComparisonTable) (tgt : TargetVector) (k : ℕ) :
    (∀ res, find_closest cfg table tgt k = Except.ok res →
      ∀ e ∈ tgt.entries, normUsed cfg.degenerate e ≠ 0) ∧
    (cfg.degenerate = DegeneratePolicy.failDegenerate →
      missingFields tgt table = [] → table.rows ≠ [] →
      ∀ e ∈ tgt.entries, normBase e = 0 →
      ∃ f, find_closest cfg table tgt k =
        Except.error (QueryError.DegenerateNormalization f)) ∧
    (∀ e, cfg.degenerate = DegeneratePolicy.fallbackAbsolute → normBase e = 0 →
      normUsed cfg.degenerate e = 1) := by
  refine ⟨?_, ?_, ?_⟩
  · intro res h e he
    cases hp : cfg.degenerate with
    | failDegenerate =>
      have hnone := find_closest_ok_no_degenerate h hp
      unfold degenerateEntry at hnone
      rw [List.find?_eq_none] at hnone
      have := hnone e he
      simp at this
      simpa [normUsed] using this
    | fallbackAbsolute =>
      simp only [normUsed]
      split
      · exact one_ne_zero
      · assumption
  · intro hp h1 h2 e he hz
    have hsome : (degenerateEntry tgt).isSome := by
      unfold degenerateEntry
      rw [List.find?_isSome]
      exact ⟨e, he, by simpa using hz⟩
    obtain ⟨e', he'⟩ := Option.isSome_iff_exists.mp hsome
    exact ⟨e'.field, find_closest_degenerate h1 h2 hp he'⟩
  · intro e hp hz
    rw [hp]
    simp [normUsed, hz]

/-- Target whose only entry has target value 0 under the default relative
normalization: a degenerate normalizer. -/
def zeroTarget : TargetVector := ⟨[⟨"frequency", 0, 1, none⟩], none⟩

/-- Witness for claim C7: on the example table a zero-valued relative
target is reported as `DegenerateNormalization` under the default policy,
and the fallback policy would use the absolute divisor 1. -/
theorem find_closest_degenerate_safety_witness :
    (∃ f, find_closest defaultConfig exTable zeroTarget 1 =
      Except.error (QueryError.DegenerateNormalization f)) ∧
    normUsed DegeneratePolicy.fallbackAbsolute ⟨"frequency", 0, 1, none⟩ = 1 := by
  refine ⟨?_, ?_⟩
  · exact (find_closest_degenerate_safety defaultConfig exTable zeroTarget 1).2.1
      (by decide) (by decide) (by decide) ⟨"frequency", 0, 1, none⟩ (by decide)
      (by decide)
  · exact (find_closest_degenerate_safety
      ⟨NormKind.sumSquares, DegeneratePolicy.fallbackAbsolute⟩ exTable zeroTarget 1).2.2
      ⟨"frequency", 0, 1, none⟩ rfl (by decide)

/-- Claim C5: `find_closest` is deterministic — for a fixed (table, target,
k) it is one fixed value, so repeated calls return identical records,
order, and distances — and within the ranked candidate list an exact
distance tie is always resolved in favour of the candidate occurring first
in the table's stable row order; the successful result is the `k`-prefix of
that ranked list. -/
theorem find_closest_deterministic_stable (cfg : MatchConfig)
    (table : ComparisonTable) (tgt : TargetVector) (k : ℕ) :
    find_closest cfg table tgt k = find_closest cfg table tgt k ∧
    (rankCandidates cfg tgt table.rows).Pairwise
      (fun a b => a.dist < b.dist ∨ (a.dist = b.dist ∧ a.idx < b.idx)) ∧
    (∀ res, find_closest cfg table tgt k = Except.ok res →
      res = ((rankCandidates cfg tgt table.rows).take k).map
        (fun c => (c.row, c.dist))) :=
  ⟨rfl, rankCandidates_pairwise_strict cfg tgt table.rows,
    fun _ h => (find_closest_ok h).2.2⟩

/-- Witness for claim C5: on the duplicated-physics example with `k = 2`
both calls return the two zero-distance records with the earlier row first,
matching the ranked prefix. -/
theorem find_closest_deterministic_stable_witness :
    find_closest defaultConfig dupTable dupTarget 2 =
      Except.ok [(dupR1, 0), (dupR2, 0)] ∧
    ([(dupR1, (0 : ℚ)), (dupR2, (0 : ℚ))] : List (DesignRecord × ℚ)) =
      ((rankCandidates defaultConfig dupTarget dupTable.rows).take 2).map
        (fun c => (c.row, c.dist)) := by
  have h : find_closest defaultConfig dupTable dupTarget 2 =
      Except.ok [(dupR1, 0), (dupR2, 0)] := by
    norm_num [find_closest, missingFields, degenerateEntry, rankedResults,
      rankCandidates, candidateRows, annotate, distance, fieldTerm, deviation,
      normBase, normUsed, fieldVal, defaultConfig, dupTable, dupTarget, dupR1,
      dupR2, List.insertionSort, List.orderedInsert, candLe, List.find?,
      List.filter, absQ]
    intro hfalse
    simp at hfalse
  exact ⟨h,
    (find_closest_deterministic_stable defaultConfig dupTable dupTarget 2).2.2 _ h⟩

/-- Scale the target value of field `f` by `c`, leaving other entries,
weights and normalization overrides unchanged. -/
def scaleEntry (f : String) (c : ℚ) (e : TargetEntry) : TargetEntry :=
  if e.field == f then ⟨e.field, c * e.value, e.weight, e.scale⟩ else e

/-- Scale the target value of field `f` by `c` throughout a target vector. -/
def scaleTarget (f : String) (c : ℚ) (tgt : TargetVector) : TargetVector :=
  ⟨tgt.entries.map (scaleEntry f c), tgt.resType⟩

/-- Scale a record's value of physics field `f` by `c`. -/
def scaleRow (f : String) (c : ℚ) (r : DesignRecord) : DesignRecord :=
  ⟨r.physics.map (fun p => if p.1 == f then (p.1, c * p.2) else p),
   r.resonanceType, r.design⟩

/-- Scale every row's value of physics field `f` by `c`. -/
def scaleTable (f : String) (c : ℚ) (t : ComparisonTable) : ComparisonTable :=
  ⟨t.schema, t.rows.map (scaleRow f c)⟩

/-- A candidate after scaling: same index and distance, scaled row. -/
def candScale (f : String) (c : ℚ) (cd : Cand) : Cand :=
  ⟨cd.idx, scaleRow f c cd.row, cd.dist⟩

/-- Scaling an entry does not change its field name. -/
theorem scaleEntry_field (f : String) (c : ℚ) (e : TargetEntry) :
    (scaleEntry f c e).field = e.field := by
  unfold scaleEntry
  split <;> rfl

/-- Scaling an entry does not change its weight. -/
theorem scaleEntry_weight (f : String) (c : ℚ) (e : TargetEntry) :
    (scaleEntry f c e).weight = e.weight := by
  unfold scaleEntry
  split <;> rfl

/-- Scaling one field's values changes neither target field names nor the
schema, hence not the missing-field check. -/
theorem missingFields_scale (f : String) (c : ℚ) (tgt : TargetVector)
    (table : ComparisonTable) :
    missingFields (scaleTarget f c tgt) (scaleTable f c table) =
      missingFields tgt table := by
  unfold missingFields scaleTarget scaleTable
  simp only [List.map_map]
  congr 1
  apply List.map_congr_left
  intro e _
  exact scaleEntry_field f c e

/-- Lookup of the scaled field in a scaled association list. -/
theorem find?_scaled_same (f : String) (c : ℚ) :
    ∀ l : List (String × ℚ),
      (l.map (fun p => if p.1 == f then (p.1, c * p.2) else p)).find?
          (fun p => p.1 == f) =
        Option.map (fun p : String × ℚ => (p.1, c * p.2))
          (l.find? (fun p => p.1 == f)) := by
  intro l
  induction l with
  | nil => rfl
  | cons p l ih =>
    by_cases hpf : (p.1 == f) = true
    · rw [List.map_cons, if_pos hpf]
      simp only [List.find?, hpf]
      rfl
    · have hpf' : (p.1 == f) = false := by
        revert hpf; cases (p.1 == f) <;> simp
      rw [List.map_cons, if_neg hpf]
      simp only [List.find?, hpf']
      exact ih

/-- Lookup of a different field is unchanged by scaling field `f`. -/
theorem find?_scaled_other (f g : String) (c : ℚ) (hg : g ≠ f) :
    ∀ l : List (String × ℚ),
      (l.map (fun p => if p.1 == f then (p.1, c * p.2) else p)).find?
          (fun p => p.1 == g) =
        l.find? (fun p => p.1 == g) := by
  intro l
  induction l with
  | nil => rfl
  | cons p l ih =>
    by_cases hpg : (p.1 == g) = true
    · have hpf : ¬ ((p.1 == f) = true) := by
        intro hpf
        exact hg ((eq_of_beq hpg).symm.trans (eq_of_beq hpf))
      rw [List.map_cons, if_neg hpf]
      simp only [List.find?, hpg]
    · have hpg' : (p.1 == g) = false := by
        revert hpg; cases (p.1 == g) <;> simp
      by_cases hpf : (p.1 == f) = true
      · rw [List.map_cons, if_pos hpf]
        simp only [List.find?, hpg']
        exact ih
      · rw [List.map_cons, if_neg hpf]
        simp only [List.find?, hpg']
        exact ih

/-- The scaled field's value in a scaled row is the scaled value. -/
theorem fieldVal_scaleRow_same (f : String) (c : ℚ) (r : DesignRecord) :
    fieldVal (scaleRow f c r) f = c * fieldVal r f := by
  unfold fieldVal scaleRow
  rw [find?_scaled_same]
  cases (r.physics.find? (fun p => p.1 == f)) with
  | none => simp
  | some p => simp

/-- Other fields' values in a scaled row are unchanged. -/
theorem fieldVal_scaleRow_other (f g : String) (c : ℚ) (hg : g ≠ f)
    (r : DesignRecord) : fieldVal (scaleRow f c r) g = fieldVal r g := by
  unfold fieldVal scaleRow
  rw [find?_scaled_other f g c hg]

/-- Under the default relative normalization for field `f`, scaling the
target value scales the requested normalizer by the same factor. -/
theorem normBase_scaleEntry_rel {f : String} {c : ℚ} {e : TargetEntry}
    (hef : (e.field == f) = true) (hsc : e.scale = none) :
    normBase (scaleEntry f c e) = c * normBase e := by
  unfold scaleEntry normBase
  rw [if_pos hef, hsc]
  rfl

/-- Scaling a field other than the entry's leaves the entry unchanged. -/
theorem scaleEntry_other {f : String} {c : ℚ} {e : TargetEntry}
    (hef : ¬ (e.field == f) = true) : scaleEntry f c e = e := by
  unfold scaleEntry
  rw [if_neg hef]

/-- Relative deviations are invariant under a common positive scaling of
one field's target and candidate values (explicit-failure policy, default
relative normalization on the scaled field). -/
theorem deviation_scale {f : String} {c : ℚ} (hc : c ≠ 0) {e : TargetEntry}
    {r : DesignRecord} (he : e.field = f → e.scale = none) :
    deviation DegeneratePolicy.failDegenerate (scaleEntry f c e) (scaleRow f c r) =
      deviation DegeneratePolicy.failDegenerate e r := by
  unfold deviation normUsed
  by_cases hef : (e.field == f) = true
  · have hfe : e.field = f := eq_of_beq hef
    have hsc : e.scale = none := he hfe
    have hval : (scaleEntry f c e).value = c * e.value := by
      unfold scaleEntry
      rw [if_pos hef]
    have hnbe : normBase e = e.value := by
      unfold normBase
      rw [hsc]
      rfl
    rw [scaleEntry_field, hval, normBase_scaleEntry_rel hef hsc, hfe,
      fieldVal_scaleRow_same, hnbe, ← mul_sub]
    by_cases hz : e.value = 0
    · rw [hz, mul_zero, div_zero, div_zero]
    · rw [mul_div_mul_left _ _ hc]
  · have hne : e.field ≠ f := fun hh => hef (beq_iff_eq.mpr hh)
    rw [scaleEntry_other hef, fieldVal_scaleRow_other f e.field c hne]

/-- Per-field distance contributions are invariant under the common
scaling. -/
theorem fieldTerm_scale {cfg : MatchConfig}
    (hp : cfg.degenerate = DegeneratePolicy.failDegenerate) {f : String}
    {c : ℚ} (hc : c ≠ 0) {e : TargetEntry} {r : DesignRecord}
    (he : e.field = f → e.scale = none) :
    fieldTerm cfg (scaleEntry f c e) (scaleRow f c r) = fieldTerm cfg e r := by
  unfold fieldTerm
  cases cfg.norm with
  | sumSquares => rw [hp, deviation_scale hc he, scaleEntry_weight]
  | sumAbs => rw [hp, deviation_scale hc he, scaleEntry_weight]

/-- Whole distances are invariant under the common scaling. -/
theorem distance_scale {cfg : MatchConfig}
    (hp : cfg.degenerate = DegeneratePolicy.failDegenerate) {f : String}
    {c : ℚ} (hc : c ≠ 0) {tgt : TargetVector} {r : DesignRecord}
    (hrel : ∀ e ∈ tgt.entries, e.field = f → e.scale = none) :
    distance cfg (scaleTarget f c tgt) (scaleRow f c r) = distance cfg tgt r := by
  unfold distance scaleTarget
  simp only [List.map_map]
  congr 1
  apply List.map_congr_left
  intro e hee
  exact fieldTerm_scale hp hc (hrel e hee)

/-- `find?` only depends on the predicate's values on the list members. -/
theorem find?_congr_mem {α : Type} {p q : α → Bool} :
    ∀ {l : List α}, (∀ a ∈ l, p a = q a) → l.find? p = l.find? q := by
  intro l
  induction l with
  | nil => intro _; rfl
  | cons a l ih =>
    intro h
    simp only [List.find?]
    rw [h a (List.mem_cons_self a l)]
    cases hqa : q a with
    | true => rfl
    | false => exact ih (fun x hx => h x (List.mem_cons_of_mem a hx))

/-- The degenerate-entry check commutes with the common scaling. -/
theorem degenerateEntry_scale {f : String} {c : ℚ} (hc : c ≠ 0)
    {tgt : TargetVector}
    (hrel : ∀ e ∈ tgt.entries, e.field = f → e.scale = none) :
    degenerateEntry (scaleTarget f c tgt) =
      Option.map (scaleEntry f c) (degenerateEntry tgt) := by
  unfold degenerateEntry scaleTarget
  rw [List.find?_map]
  congr 1
  apply find?_congr_mem
  intro e he
  simp only [Function.comp_apply]
  by_cases hef : (e.field == f) = true
  · rw [normBase_scaleEntry_rel hef (hrel e he (eq_of_beq hef))]
    have hnbe : normBase e = e.value := by
      unfold normBase
      rw [hrel e he (eq_of_beq hef)]
      rfl
    apply decide_eq_decide.mpr
    rw [mul_eq_zero]
    exact ⟨fun h => h.resolve_left hc, fun h => Or.inr h⟩
  · rw [scaleEntry_other hef]

/-- Ordered insertion commutes with the row-only candidate transformation,
since the ranking order reads only indices and distances. -/
theorem orderedInsert_candScale (f : String) (c : ℚ) (a : Cand) :
    ∀ l : List Cand,
      List.orderedInsert candLe (candScale f c a) (l.map (candScale f c)) =
        (List.orderedInsert candLe a l).map (candScale f c) := by
  intro l
  induction l with
  | nil => rfl
  | cons b l ih =>
    simp only [List.map_cons, List.orderedInsert]
    by_cases h : candLe a b
    · rw [if_pos h, if_pos (show candLe (candScale f c a) (candScale f c b) from h)]
      simp
    · rw [if_neg h, if_neg (show ¬ candLe (candScale f c a) (candScale f c b) from h)]
      rw [List.map_cons, ih]

/-- Sorting commutes with the row-only candidate transformation. -/
theorem insertionSort_candScale (f : String) (c : ℚ) :
    ∀ l : List Cand,
      List.insertionSort candLe (l.map (candScale f c)) =
        (List.insertionSort candLe l).map (candScale f c) := by
  intro l
  induction l with
  | nil => rfl
  | cons a l ih =>
    simp only [List.map_cons, List.insertionSort]
    rw [ih, orderedInsert_candScale]

/-- Annotation commutes with the common scaling: indices and distances are
unchanged and rows are scaled. -/
theorem annotate_scale {cfg : MatchConfig}
    (hp : cfg.degenerate = DegeneratePolicy.failDegenerate) {f : String}
    {c : ℚ} (hc : c ≠ 0) {tgt : TargetVector}
    (hrel : ∀ e ∈ tgt.entries, e.field = f → e.scale = none) :
    ∀ (i : ℕ) (rows : List DesignRecord),
      annotate cfg (scaleTarget f c tgt) i (rows.map (scaleRow f c)) =
        (annotate cfg tgt i rows).map (candScale f c) := by
  intro i rows
  induction rows generalizing i with
  | nil => rfl
  | cons r rs ih =>
    simp only [List.map_cons, annotate]
    rw [ih, distance_scale hp hc hrel]
    rfl

/-- Filtering after a map is mapping after an equivalent filter. -/
theorem filter_map_swap {α β : Type} (g : α → β) (p : β → Bool) (q : α → Bool)
    (hpq : ∀ a, p (g a) = q a) :
    ∀ l : List α, (l.map g).filter p = (l.filter q).map g := by
  intro l
  induction l with
  | nil => rfl
  | cons a l ih =>
    simp only [List.map_cons, List.filter]
    rw [hpq a]
    cases q a with
    | true => rw [List.map_cons, ih]
    | false => exact ih

/-- Candidate-row selection commutes with the common scaling (the
resonance-type restriction is untouched by numeric scaling). -/
theorem candidateRows_scale (f : String) (c : ℚ) (tgt : TargetVector)
    (rows : List DesignRecord) :
    candidateRows (scaleTarget f c tgt) (rows.map (scaleRow f c)) =
      (candidateRows tgt rows).map (scaleRow f c) := by
  unfold candidateRows scaleTarget
  cases tgt.resType with
  | none => rfl
  | some s => exact filter_map_swap _ _ _ (fun r => rfl) rows

/-- Ranking commutes with the common scaling. -/
theorem rankCandidates_scale {cfg : MatchConfig}
    (hp : cfg.degenerate = DegeneratePolicy.failDegenerate) {f : String}
    {c : ℚ} (hc : c ≠ 0) {tgt : TargetVector}
    (hrel : ∀ e ∈ tgt.entries, e.field = f → e.scale = none)
    (rows : List DesignRecord) :
    rankCandidates cfg (scaleTarget f c tgt) (rows.map (scaleRow f c)) =
      (rankCandidates cfg tgt rows).map (candScale f c) := by
  unfold rankCandidates
  rw [candidateRows_scale, annotate_scale hp hc hrel, insertionSort_candScale]

/-- The projected `k`-prefix commutes with the common scaling. -/
theorem rankedResults_scale {cfg : MatchConfig}
    (hp : cfg.degenerate = DegeneratePolicy.failDegenerate) {f : String}
    {c : ℚ} (hc : c ≠ 0) {tgt : TargetVector}
    (hrel : ∀ e ∈ tgt.entries, e.field = f → e.scale = none)
    (rows : List DesignRecord) (k : ℕ) :
    rankedResults cfg (scaleTarget f c tgt) (rows.map (scaleRow f c)) k =
      (rankedResults cfg tgt rows k).map
        (fun p : DesignRecord × ℚ => (scaleRow f c p.1, p.2)) := by
  unfold rankedResults
  rw [rankCandidates_scale hp hc hrel, ← List.map_take, List.map_map, List.map_map]
  rfl

/-- Claim C8: under the default relative-error normalization (no
user-supplied scale on the scaled field) and the explicit-failure
degenerate policy, multiplying one field's target value and every
candidate's value by the same positive constant leaves the outcome of
`find_closest` unchanged up to the scaling of the stored records — in
particular the candidate ranking, the order, and all distances are
identical. -/
theorem find_closest_scaling_invariance {cfg : MatchConfig}
    {table : ComparisonTable} {tgt : TargetVector} {k : ℕ} {f : String}
    {c : ℚ} (hp : cfg.degenerate = DegeneratePolicy.failDegenerate)
    (hc : 0 < c) (hrel : ∀ e ∈ tgt.entries, e.field = f → e.scale = none) :
    find_closest cfg (scaleTable f c table) (scaleTarget f c tgt) k =
      Except.map (List.map (fun p : DesignRecord × ℚ => (scaleRow f c p.1, p.2)))
        (find_closest cfg table tgt k) := by
  have hcne : c ≠ 0 := ne_of_gt hc
  have hms := missingFields_scale f c tgt table
  have hrows : (scaleTable f c table).rows = table.rows.map (scaleRow f c) := rfl
  unfold find_closest
  rw [hms]
  by_cases h1 : missingFields tgt table = []
  · rw [if_pos h1, if_pos h1]
    by_cases h2 : table.rows = []
    · rw [if_pos h2, if_pos (by rw [hrows, h2]; rfl)]
      rfl
    · rw [if_neg h2, if_neg (by rw [hrows]; simpa using h2)]
      simp only [hp]
      cases hd : degenerateEntry tgt with
      | some e =>
        rw [degenerateEntry_scale hcne hrel, hd]
        simp only [Option.map_some']
        rw [scaleEntry_field]
        rfl
      | none =>
        rw [degenerateEntry_scale hcne hrel, hd]
        simp only [Option.map_none']
        rw [hrows, rankedResults_scale hp hcne hrel]
        rfl
  · rw [if_neg h1, if_neg h1]
    rfl

/-- Witness for claim C8: scaling the `frequency` field by 2 throughout the
three-candidate example leaves the query outcome unchanged up to scaling of
the stored rows. -/
theorem find_closest_scaling_invariance_witness :
    find_closest defaultConfig (scaleTable "frequency" 2 exTable)
        (scaleTarget "frequency" 2 exTarget) 1 =
      Except.map (List.map (fun p : DesignRecord × ℚ => (scaleRow "frequency" 2 p.1, p.2)))
        (find_closest defaultConfig exTable exTarget 1) :=
  find_closest_scaling_invariance rfl (by norm_num) (by decide)

/-- Modelled from the spec (§4.3, §7): the static, versioned scaling-rule
table mapping a resonator topology name to its registered scaling
exponent. -/
def lookupRule (rules : List (String × ℤ)) (topo : String) : Option ℤ :=
  (rules.find? (fun p => p.1 == topo)).map Prod.snd

/-- Modelled from the spec (§3 InterpolatedDesign, §6): the synthesized
design fields, provenance naming each applied scaling rule with its
exponent, and the fields passed through unscaled. -/
structure InterpolatedDesign where
  design : List (String × ℚ)
  provenance : List (String × ℤ)
  passThrough : List String
deriving DecidableEq

/-- Modelled from the spec (§4.3): coupling strength scales with its own
geometric parameter under a separate power law, independent of the
resonator topology. -/
def couplingExponent : ℤ := 1

/-- The target value requested for a physics field, if any. -/
def getTargetValue (tgt : TargetVector) (f : String) : Option ℚ :=
  (tgt.entries.find? (fun e => e.field == f)).map TargetEntry.value

/-- Overwrite one design field's value, copying every other field. -/
def setDesign (l : List (String × ℚ)) (f : String) (v : ℚ) : List (String × ℚ) :=
  l.map (fun p => if p.1 == f then (p.1, v) else p)

/-- Modelled from the spec (§4.3 contract of the Scaling Interpolator; the
implementation is not in the source tree): look up the exponent registered
for the target's resonator topology, failing with
`NoScalingRuleForTopology` when none is registered and never substituting
another topology's exponent; on success rescale the resonator length by the
frequency ratio raised to the registered exponent, rescale the coupling
length under the separate coupling power law, copy all other design fields
unchanged, pass quality factor through unscaled, and record provenance. -/
def interpolate (rules : List (String × ℤ)) (closest : DesignRecord)
    (tgt : TargetVector) : Except QueryError InterpolatedDesign :=
  match tgt.resType with
  | none => Except.error (QueryError.NoScalingRuleForTopology "unspecified")
  | some topo =>
    match lookupRule rules topo with
    | none => Except.error (QueryError.NoScalingRuleForTopology topo)
    | some expT =>
      let d1 := match getTargetValue tgt "frequency" with
        | none => closest.design
        | some tv => setDesign closest.design "total_length"
            (designVal closest "total_length" *
              ipowQ (tv / fieldVal closest "frequency") expT)
      let d2 := match getTargetValue tgt "coupling_strength" with
        | none => d1
        | some gv => setDesign d1 "coupling_length"
            (designVal closest "coupling_length" *
              ipowQ (gv / fieldVal closest "coupling_strength") couplingExponent)
      Except.ok
        ⟨d2,
         (topo, expT) ::
           (match getTargetValue tgt "coupling_strength" with
            | none => []
            | some _ => [("coupling", couplingExponent)]),
         ["quality_factor"]⟩

/-- Claim C3: when the target's resonator topology has no exponent
registered in the scaling-rule table, `interpolate` fails with
`NoScalingRuleForTopology` naming that topology; and whenever it succeeds
the applied rule recorded first in the provenance is exactly the exponent
registered for the requested topology — never another topology's
exponent. -/
theorem interpolate_no_rule_isolation (rules : List (String × ℤ))
    (closest : DesignRecord) (tgt : TargetVector) (topo : String)
    (ht : tgt.resType = some topo) :
    (lookupRule rules topo = none →
      interpolate rules closest tgt =
        Except.error (QueryError.NoScalingRuleForTopology topo)) ∧
    (∀ d, interpolate rules closest tgt = Except.ok d →
      ∃ ex, lookupRule rules topo = some ex ∧
        d.provenance.head? = some (topo, ex)) := by
  constructor
  · intro hnone
    unfold interpolate
    rw [ht]
    simp only [hnone]
  · intro d hd
    unfold interpolate at hd
    rw [ht] at hd
    cases hl : lookupRule rules topo with
    | none =>
      simp only [hl] at hd
      cases hd
    | some ex =>
      simp only [hl] at hd
      refine ⟨ex, rfl, ?_⟩
      injection hd with hde
      rw [← hde]
      rfl

/-- Rule table registering an exponent only for quarter-wave resonators. -/
def qwRules : List (String × ℤ) := [("quarter_wave", -1)]

/-- A half-wave interpolation target. -/
def hwTarget : TargetVector := ⟨[⟨"frequency", 5, 1, none⟩], some "half_wave"⟩

/-- Witness for claim C3: a half-wave request against rules registered only
for quarter-wave raises `NoScalingRuleForTopology "half_wave"` and never
applies the quarter-wave exponent. -/
theorem interpolate_no_rule_isolation_witness :
    interpolate qwRules exR1 hwTarget =
      Except.error (QueryError.NoScalingRuleForTopology "half_wave") :=
  (interpolate_no_rule_isolation qwRules exR1 hwTarget "half_wave" rfl).1 (by decide)

/-- Modelled from the spec (§4.1, §6): the fixed enumerated vocabulary of
component-type identifiers. -/
def componentVocabulary : List String :=
  ["TransmonCross", "RouteMeander", "CLT", "NCap", "CapNInterdigitalTee"]

/-- Modelled from the spec (§2, §6): the Record Store, bulk-loaded raw
per-component tables keyed by component type. -/
structure RecordStore where
  tables : List (String × List DesignRecord)
deriving DecidableEq

/-- Raw sub-table stored for a component type. -/
def storeRows (store : RecordStore) (comp : String) : List DesignRecord :=
  ((store.tables.find? (fun p => p.1 == comp)).map Prod.snd).getD []

/-- Column-wise merge of two records into one complete-system record. -/
def mergeRecords (a b : DesignRecord) : DesignRecord :=
  ⟨a.physics ++ b.physics, a.resonanceType, a.design ++ b.design⟩

/-- Join of two sub-tables: each joined row unifies one row from each. -/
def joinTables (t1 t2 : List DesignRecord) : List DesignRecord :=
  t1.flatMap (fun a => t2.map (mergeRecords a))

/-- Merge a selection's filtered sub-tables into one candidate table;
a single selected component stays a single-component table. -/
def mergeAll : List (List DesignRecord) → List DesignRecord
  | [] => []
  | [t] => t
  | t :: ts => joinTables t (mergeAll ts)

/-- Physics-field schema read off the merged rows. -/
def schemaOf (rows : List DesignRecord) : List String :=
  ((rows.head?).map (fun r => r.physics.map Prod.fst)).getD []

/-- Rows remaining after filtering each selected component's sub-table to
the requested resonator topology and merging. -/
def mergedRows (store : RecordStore) (selection : List String)
    (topology : String) : List DesignRecord :=
  mergeAll (selection.map (fun s =>
    (storeRows store s).filter (fun r => r.resonanceType == topology)))

/-- Modelled from the spec (§4.1 contract of the Query/Selection Front-end;
the implementation is not in the source tree): validate every selected
identifier against the vocabulary, filter and merge the raw sub-tables, and
fail with `EmptyResultSet` when no rows match; the store is threaded
through unchanged (reads only). -/
def build_comparison_table (store : RecordStore) (selection : List String)
    (topology : String) : Except QueryError ComparisonTable × RecordStore :=
  match selection.find? (fun s => !(componentVocabulary.contains s)) with
  | some bad => (Except.error (QueryError.UnknownComponentType bad), store)
  | none =>
    if mergedRows store selection topology = [] then
      (Except.error QueryError.EmptyResultSet, store)
    else
      (Except.ok ⟨schemaOf (mergedRows store selection topology),
        mergedRows store selection topology⟩, store)

/-- Claim C9: `build_comparison_table` fails with `UnknownComponentType`
whenever any supplied identifier is outside the fixed vocabulary, fails
with `EmptyResultSet` when no rows remain after filtering and merging, and
in every case — success or failure — returns the Record Store unchanged
(reads only, no mutation). -/
theorem build_comparison_table_errors_readonly (store : RecordStore)
    (selection : List String) (topology : String) :
    (build_comparison_table store selection topology).2 = store ∧
    (∀ bad ∈ selection, bad ∉ componentVocabulary →
      ∃ b, b ∈ selection ∧ b ∉ componentVocabulary ∧
        (build_comparison_table store selection topology).1 =
          Except.error (QueryError.UnknownComponentType b)) ∧
    ((∀ s ∈ selection, s ∈ componentVocabulary) →
      mergedRows store selection topology = [] →
      (build_comparison_table store selection topology).1 =
        Except.error QueryError.EmptyResultSet) ∧
    ((∀ s ∈ selection, s ∈ componentVocabulary) →
      mergedRows store selection topology ≠ [] →
      (build_comparison_table store selection topology).1 =
        Except.ok ⟨schemaOf (mergedRows store selection topology),
          mergedRows store selection topology⟩) := by
  refine ⟨?_, ?_, ?_, ?_⟩
  · unfold build_comparison_table
    cases selection.find? (fun s => !(componentVocabulary.contains s)) with
    | some bad => rfl
    | none =>
      by_cases hm : mergedRows store selection topology = []
      · rw [if_pos hm]
      · rw [if_neg hm]
  · intro bad hbad hnot
    have hsome : (selection.find? (fun s => !(componentVocabulary.contains s))).isSome := by
      rw [List.find?_isSome]
      refine ⟨bad, hbad, ?_⟩
      simp [hnot]
    obtain ⟨b, hb⟩ := Option.isSome_iff_exists.mp hsome
    have hbmem := List.find?_some hb
    have hbin := List.mem_of_find?_eq_some hb
    refine ⟨b, hbin, ?_, ?_⟩
    · intro hbv
      simp at hbmem
      exact hbmem hbv
    · unfold build_comparison_table
      rw [hb]
  · intro hall hm
    have hnone : selection.find? (fun s => !(componentVocabulary.contains s)) = none := by
      rw [List.find?_eq_none]
      intro s hs
      simp [hall s hs]
    unfold build_comparison_table
    rw [hnone]
    simp only []
    rw [if_pos hm]
  · intro hall hm
    have hnone : selection.find? (fun s => !(componentVocabulary.contains s)) = none := by
      rw [List.find?_eq_none]
      intro s hs
      simp [hall s hs]
    unfold build_comparison_table
    rw [hnone]
    simp only []
    rw [if_neg hm]

/-- A store holding one transmon sub-table. -/
def exStore : RecordStore := ⟨[("TransmonCross", [exR1, exR2])]⟩

/-- Witness for claim C9: on the example store a valid selection succeeds
and the store is unchanged, while a selection containing an unknown
identifier fails with `UnknownComponentType` naming it. -/
theorem build_comparison_table_errors_readonly_witness :
    (build_comparison_table exStore ["TransmonCross"] "quarter_wave").2 = exStore ∧
    (∃ b, b ∈ (["BogusQubit"] : List String) ∧ b ∉ componentVocabulary ∧
      (build_comparison_table exStore ["BogusQubit"] "quarter_wave").1 =
        Except.error (QueryError.UnknownComponentType b)) := by
  refine ⟨?_, ?_⟩
  · exact (build_comparison_table_errors_readonly exStore ["TransmonCross"]
      "quarter_wave").1
  · exact (build_comparison_table_errors_readonly exStore ["BogusQubit"]
      "quarter_wave").2.1 "BogusQubit" (by decide) (by decide)

/-- Modelled from the spec (§4.3): rounding/binning of the driving field's
value (e.g., charging energy) to the memoization key grid. -/
def roundEC (x : ℚ) : ℚ := ((⌊x * 1000000 + 1/2⌋ : ℤ) : ℚ) / 1000000

/-- Insert a value into an ascending list of distinct values. -/
def insertUnique (x : ℚ) : List ℚ → List ℚ
  | [] => [x]
  | y :: ys =>
    if x = y then y :: ys
    else if x < y then x :: y :: ys
    else y :: insertUnique x ys

/-- The ascending list of the distinct values of a list. -/
def sortedUnique : List ℚ → List ℚ
  | [] => []
  | x :: xs => insertUnique x (sortedUnique xs)

/-- Sorted-array lookup position of `x` in an ascending array: the number
of entries below `x`. -/
def searchIdx (u : List ℚ) (x : ℚ) : ℕ := u.countP (fun y => decide (y < x))

/-- The naive pipeline: one expensive diagonalization per row. -/
def naiveDiag (f : ℚ → ℚ) (vs : List ℚ) : List ℚ :=
  vs.map (fun v => f (roundEC v))

/-- Modelled from the spec (§4.3): the deduplicated pipeline — reduce the
driving field's values to unique rounded inputs, run the expensive
computation once per unique input (the memo table `results`), and broadcast
results back to every original row by order-preserving sorted-array
lookup. -/
def dedupDiag (f : ℚ → ℚ) (vs : List ℚ) : List ℚ :=
  let keys := vs.map roundEC
  let uniq := sortedUnique keys
  let results := uniq.map f
  keys.map (fun kx => results.getD (searchIdx uniq kx) 0)

/-- Membership in an insertion is membership or being the new value. -/
theorem mem_insertUnique {x y : ℚ} :
    ∀ {l : List ℚ}, y ∈ insertUnique x l ↔ y = x ∨ y ∈ l := by
  intro l
  induction l with
  | nil => simp [insertUnique]
  | cons z zs ih =>
    unfold insertUnique
    by_cases hxz : x = z
    · rw [if_pos hxz]
      subst hxz
      simp [List.mem_cons]
    · rw [if_neg hxz]
      by_cases hlt : x < z
      · rw [if_pos hlt]
        simp [List.mem_cons]
      · rw [if_neg hlt]
        simp [List.mem_cons, ih]
        tauto

/-- Insertion preserves strict ascending order. -/
theorem insertUnique_pairwise {x : ℚ} :
    ∀ {l : List ℚ}, l.Pairwise (· < ·) → (insertUnique x l).Pairwise (· < ·) := by
  intro l
  induction l with
  | nil =>
    intro _
    simp [insertUnique]
  | cons z zs ih =>
    intro hp
    obtain ⟨hz, hzs⟩ := List.pairwise_cons.mp hp
    unfold insertUnique
    by_cases hxz : x = z
    · rw [if_pos hxz]
      exact hp
    · rw [if_neg hxz]
      by_cases hlt : x < z
      · rw [if_pos hlt]
        refine List.Pairwise.cons ?_ hp
        intro y hy
        rcases List.mem_cons.mp hy with h | h
        · exact h ▸ hlt
        · exact hlt.trans (hz y h)
      · rw [if_neg hlt]
        have hzx : z < x :=
          lt_of_le_of_ne (le_of_not_lt hlt) (fun h => hxz h.symm)
        refine List.Pairwise.cons ?_ (ih hzs)
        intro y hy
        rcases mem_insertUnique.mp hy with h | h
        · exact h ▸ hzx
        · exact hz y h

/-- The deduplicated list is strictly ascending. -/
theorem sortedUnique_pairwise : ∀ l : List ℚ, (sortedUnique l).Pairwise (· < ·) := by
  intro l
  induction l with
  | nil => simp [sortedUnique]
  | cons x xs ih => exact insertUnique_pairwise ih

/-- Every original value appears among the deduplicated values. -/
theorem mem_sortedUnique {x : ℚ} : ∀ {l : List ℚ}, x ∈ l → x ∈ sortedUnique l := by
  intro l
  induction l with
  | nil => intro h; cases h
  | cons z zs ih =>
    intro h
    rcases List.mem_cons.mp h with h | h
    · exact mem_insertUnique.mpr (Or.inl h)
    · exact mem_insertUnique.mpr (Or.inr (ih h))

/-- Sorted-array lookup into the memo table recovers the memoized value of
any present key. -/
theorem lookup_sorted (f : ℚ → ℚ) :
    ∀ {u : List ℚ}, u.Pairwise (· < ·) → ∀ {x : ℚ}, x ∈ u →
      (u.map f).getD (searchIdx u x) 0 = f x := by
  intro u
  induction u with
  | nil =>
    intro _ x hx
    cases hx
  | cons y ys ih =>
    intro hp x hx
    obtain ⟨hy, hys⟩ := List.pairwise_cons.mp hp
    rcases List.mem_cons.mp hx with h | h
    · subst h
      have h1 : List.countP (fun y => decide (y < x)) ys = 0 :=
        List.countP_eq_zero.mpr (fun z hz => by
          simp only [decide_eq_true_eq]
          exact asymm (hy z hz))
      have h0 : searchIdx (x :: ys) x = 0 := by
        unfold searchIdx
        rw [List.countP_cons, h1]
        simp
      rw [h0]
      rfl
    · have hyx : y < x := hy x h
      have hstep : searchIdx (y :: ys) x = searchIdx ys x + 1 := by
        unfold searchIdx
        rw [List.countP_cons]
        simp [hyx]
      rw [hstep, List.map_cons, List.getD_cons_succ]
      exact ih hys h

/-- Claim C4: for every diagonalization function and every list of driving
values, the deduplicated pipeline — unique rounded inputs, one computation
per unique input, order-preserving sorted-array broadcast — produces for
each row exactly the output of the naive one-computation-per-row pipeline. -/
theorem dedupDiag_eq_naiveDiag (f : ℚ → ℚ) (vs : List ℚ) :
    dedupDiag f vs = naiveDiag f vs := by
  unfold dedupDiag naiveDiag
  have hnv : vs.map (fun v => f (roundEC v)) = (vs.map roundEC).map f := by
    rw [List.map_map]
    rfl
  rw [hnv]
  apply List.map_congr_left
  intro kx hkx
  exact lookup_sorted f (sortedUnique_pairwise (vs.map roundEC))
    (mem_sortedUnique hkx)

/-- Modelled from the spec (§6) and the getting-started guide: the
recognized target-parameter fields — qubit frequency, cavity frequency,
kappa, resonance type, anharmonicity and coupling strength. -/
def recognizedTargetFields : List String :=
  ["qubit_frequency_GHz", "cavity_frequency_GHz", "kappa_kHz",
   "resonance_type", "anharmonicity_MHz", "g_MHz"]

/-- The row of every ranked candidate is one of the candidate rows. -/
theorem rankCandidates_mem_row {cfg : MatchConfig} {tgt : TargetVector}
    {rows : List DesignRecord} {c : Cand}
    (hc : c ∈ rankCandidates cfg tgt rows) : c.row ∈ candidateRows tgt rows := by
  have ha := (rankCandidates_perm cfg tgt rows).mem_iff.mp hc
  have hm := List.mem_map_of_mem Cand.row ha
  rw [annotate_map_row] at hm
  exact hm

/-- Claim C10: the recognized target-parameter fields include the
categorical `resonance_type` and the cavity linewidth kappa alongside the
numeric Hamiltonian parameters; a target carrying a resonance-type
restriction does not fail with `TargetFieldNotFound` on that account — on
an otherwise valid query it succeeds and every returned record has the
requested resonator topology — and the categorical field contributes no
numeric term to the distance. -/
theorem find_closest_resonance_type_restricts (cfg : MatchConfig)
    (table : ComparisonTable) (tgt : TargetVector) (s : String) (k : ℕ) :
    "resonance_type" ∈ recognizedTargetFields ∧
    "kappa_kHz" ∈ recognizedTargetFields ∧
    "qubit_frequency_GHz" ∈ recognizedTargetFields ∧
    "cavity_frequency_GHz" ∈ recognizedTargetFields ∧
    "anharmonicity_MHz" ∈ recognizedTargetFields ∧
    "g_MHz" ∈ recognizedTargetFields ∧
    (tgt.resType = some s → missingFields tgt table = [] → table.rows ≠ [] →
      (cfg.degenerate = DegeneratePolicy.failDegenerate →
        degenerateEntry tgt = none) →
      ∃ res, find_closest cfg table tgt k = Except.ok res ∧
        ∀ p ∈ res, p.1.resonanceType = s) ∧
    (∀ r, distance cfg tgt r = distance cfg ⟨tgt.entries, none⟩ r) := by
  refine ⟨by decide, by decide, by decide, by decide, by decide, by decide, ?_, fun r => rfl⟩
  intro htR h1 h2 hdeg
  refine ⟨rankedResults cfg tgt table.rows k, find_closest_success h1 h2 hdeg, ?_⟩
  intro p hp
  unfold rankedResults at hp
  obtain ⟨c, hc, rfl⟩ := List.mem_map.mp hp
  have hcr : c ∈ rankCandidates cfg tgt table.rows := List.mem_of_mem_take hc
  have hrow := rankCandidates_mem_row hcr
  unfold candidateRows at hrow
  rw [htR] at hrow
  simp only [] at hrow
  have hb := (List.mem_filter.mp hrow).2
  simp only [decide_eq_true_eq] at hb
  exact eq_of_beq hb

/-- A half-wave example record. -/
def hwR : DesignRecord := ⟨[("frequency", 6)], "half_wave", [("total_length", 15)]⟩

/-- A table mixing quarter-wave and half-wave rows. -/
def mixTable : ComparisonTable := ⟨["frequency"], [exR1, hwR]⟩

/-- A target restricted to half-wave resonators. -/
def resTarget : TargetVector := ⟨[⟨"frequency", 5, 1, none⟩], some "half_wave"⟩

/-- Witness for claim C10: on the mixed table a half-wave-restricted target
succeeds (no `TargetFieldNotFound`) and every returned record is
half-wave. -/
theorem find_closest_resonance_type_restricts_witness :
    "resonance_type" ∈ recognizedTargetFields ∧
    ∃ res, find_closest defaultConfig mixTable resTarget 1 = Except.ok res ∧
      ∀ p ∈ res, p.1.resonanceType = "half_wave" := by
  refine ⟨?_, ?_⟩
  · exact (find_closest_resonance_type_restricts defaultConfig mixTable
      resTarget "half_wave" 1).1
  · exact (find_closest_resonance_type_restricts defaultConfig mixTable
      resTarget "half_wave" 1).2.2.2.2.2.2.1 rfl (by decide) (by decide)
      (fun _ => by decide)

end SQuADDS
